import Mathlib

/-!
Shallow embedding of `store/hbase/snapshot.go` (package `hbasekv`): the HBase
snapshot adapter of a distributed key-value store.  The adapter wraps a
transaction handle of an external MVCC engine (go-themis over go-hbase) and
exposes point gets, batch gets, range gets, version-pinned gets and iterators.

The external engine is not part of the repository; it is modelled here from
the specification's description of the engine capability (single-row get,
multi-row get and scan over a versioned store, where a returned row carries
exactly the single fixed column `family:qualifier`).  The adapter functions
themselves (`Get`, `BatchGet`, `RangeGet`, `MvccGet`, `internalGet`,
`NewIterator`, `NewMvccIterator`, `newInnerScanner`, `Release`,
`MvccRelease`, and the iterator methods `Next`, `Valid`, `Key`, `Value`,
`Close`) are translated directly from the Go source.
-/

namespace HbaseKV

/-- A key is an opaque byte sequence (Go `kv.Key` / `[]byte`). -/
abbrev HKey := List Nat

/-- A value is a raw byte sequence (Go `[]byte`). -/
abbrev Bytes := List Nat

/-- A list of timestamped versions of one key, as maintained by the engine. -/
abbrev VersionList := List (Nat × Bytes)

/-- The external engine's versioned store: each key maps to its versions.
Modelled from the spec: the engine maintains, per key, a set of
timestamp-versions in the single fixed column. -/
abbrev Store := List (HKey × VersionList)

/-- The versions the store holds for key `k` (empty when never written). -/
def Store.versions (st : Store) (k : HKey) : VersionList :=
  match st with
  | [] => []
  | (k2, vs) :: rest => if k2 = k then vs else Store.versions rest k

/-- A row result returned by the engine (go-hbase `ResultRow`): the row key
and the value in the single fixed column `family:qualifier`, when present.
Per the spec invariant, every successful row result carries exactly that one
column, so the column map is modelled as an `Option` of its value:
`colVal = none` corresponds to `len(r.Columns) == 0`. -/
structure ResultRow where
  Row : HKey
  colVal : Option Bytes
  deriving DecidableEq, Repr

/-- `2^64`, the modulus of Go's `uint64` arithmetic. -/
def u64Mod : Nat := 2 ^ 64

/-- The version ceiling `ver.Ver + 1` computed in Go `uint64` arithmetic
(`g.TsRangeTo = ver.Ver + 1` in `MvccGet`, `scanner.SetTimeRange(0, ver.Ver+1)`
in `NewMvccIterator`). -/
def tsCeil (ver : Nat) : Nat := (ver + 1) % u64Mod

/-- The latest (highest-timestamp) version of `vs` whose timestamp lies in
the half-open range `[lo, hi)`.  Modelled from the spec: the engine's get
honours the requested timestamp range and returns the value visible at the
latest version inside it; an HBase time range is inclusive of its lower and
exclusive of its upper bound. -/
def latestBelow (vs : VersionList) (lo hi : Nat) : Option (Nat × Bytes) :=
  match vs with
  | [] => none
  | (t, v) :: rest =>
    let r := latestBelow rest lo hi
    if lo ≤ t ∧ t < hi then
      match r with
      | none => some (t, v)
      | some (t2, v2) => if t2 < t then some (t, v) else some (t2, v2)
    else r

/-- The latest version of `vs` with no timestamp constraint. -/
def latestAll (vs : VersionList) : Option (Nat × Bytes) :=
  match vs with
  | [] => none
  | (t, v) :: rest =>
    match latestAll rest with
    | none => some (t, v)
    | some (t2, v2) => if t2 < t then some (t, v) else some (t2, v2)

/-- Modelled from the spec: the engine's single-row get
(`handle.get(table, single-row request with column selector[, version
ceiling]) → row result | not-found`).  With a requested timestamp range it
returns the row carrying the value at the latest version in that range; with
no range, the latest version overall; no row when no version qualifies. -/
def engineGet (st : Store) (k : HKey) (tsRange : Option (Nat × Nat)) :
    Option ResultRow :=
  let pick :=
    match tsRange with
    | none => latestAll (st.versions k)
    | some (lo, hi) => latestBelow (st.versions k) lo hi
  pick.map (fun p => { Row := k, colVal := some p.2 })

/-- The error cause taxonomy at this layer: `kv.ErrNotExist`, or an error
surfaced by the underlying engine. -/
inductive KvError where
  | errNotExist
  | engine (msg : String)
  deriving DecidableEq, Repr

/-- A traced error (juju `errors.Trace`): the underlying cause is preserved,
and `depth` counts how many times the error was wrapped with context. -/
structure TracedError where
  cause : KvError
  depth : Nat
  deriving DecidableEq, Repr

/-- `errors.Trace` applied to an already-traced error: cause preserved,
one more layer of context. -/
def trace (t : TracedError) : TracedError := { t with depth := t.depth + 1 }

/-- `errors.Trace` applied to a plain error value such as `kv.ErrNotExist`. -/
def traceNew (e : KvError) : TracedError := { cause := e, depth := 1 }

/-- Does the result fail with the NotFound error (`kv.ErrNotExist` as the
preserved cause, however many times traced)? -/
def isNotFoundRes (x : Except TracedError Bytes) : Bool :=
  match x with
  | .error t => t.cause = KvError.errNotExist
  | .ok _ => false

/-- The Go pair `(r *hbase.ResultRow, err error)` returned by `s.txn.Get`. -/
abbrev GoGetResp := Option ResultRow × Option String

/-- The engine call `s.txn.Get(s.storeName, g)`, with an injected lower-layer
fault: when `fault` is set the engine fails with that error, otherwise it
answers from the store. -/
def txnGet (st : Store) (fault : Option String) (k : HKey)
    (tsRange : Option (Nat × Nat)) : GoGetResp :=
  match fault with
  | some e => (none, some e)
  | none => (engineGet st k tsRange, none)

/-- `internalGet` from the source: propagate an engine error traced;
`r == nil || len(r.Columns) == 0` becomes `errors.Trace(kv.ErrNotExist)`;
otherwise return the fixed column's value. -/
def internalGet (resp : GoGetResp) : Except TracedError Bytes :=
  match resp.2 with
  | some e => .error (traceNew (KvError.engine e))
  | none =>
    match resp.1 with
    | none => .error (traceNew KvError.errNotExist)
    | some r =>
      match r.colVal with
      | none => .error (traceNew KvError.errNotExist)
      | some v => .ok v

/-- The post-processing both `Get` and `MvccGet` apply to `internalGet`:
an error is returned wrapped once more with `errors.Trace`. -/
def getFromResp (resp : GoGetResp) : Except TracedError Bytes :=
  match internalGet resp with
  | .error e => .error (trace e)
  | .ok v => .ok v

/-- `hbaseSnapshot.Get`: a single-row fetch of the fixed column with no
timestamp constraint, through `internalGet`. -/
def Get (st : Store) (fault : Option String) (k : HKey) :
    Except TracedError Bytes :=
  getFromResp (txnGet st fault k none)

/-- `hbaseSnapshot.MvccGet`: like `Get` but with
`g.TsRangeFrom = 0; g.TsRangeTo = ver.Ver + 1` (uint64 arithmetic). -/
def MvccGet (st : Store) (fault : Option String) (k : HKey) (ver : Nat) :
    Except TracedError Bytes :=
  getFromResp (txnGet st fault k (some (0, tsCeil ver)))

/-- Specification-side definition (from the spec's words, for comparison
with `MvccGet`): the latest committed version whose timestamp is `≤ V`. -/
def latestLe (vs : VersionList) (V : Nat) : Option (Nat × Bytes) :=
  match vs with
  | [] => none
  | (t, v) :: rest =>
    let r := latestLe rest V
    if t ≤ V then
      match r with
      | none => some (t, v)
      | some (t2, v2) => if t2 < t then some (t, v) else some (t2, v2)
    else r

/-- Specification-side definition: the value visible at the latest committed
version `≤ V`, or nothing when no version `≤ V` exists. -/
def visibleAt (vs : VersionList) (V : Nat) : Option Bytes :=
  (latestLe vs V).map Prod.snd

/-- Strict lexicographic byte order on keys, the ordering of the store. -/
def keyLt (a b : HKey) : Bool :=
  match a, b with
  | [], [] => false
  | [], _ :: _ => true
  | _ :: _, [] => false
  | x :: xs, y :: ys => if x < y then true else if y < x then false else keyLt xs ys

/-- Non-strict lexicographic byte order on keys. -/
def keyLe (a b : HKey) : Bool :=
  match a, b with
  | [], _ => true
  | _ :: _, [] => false
  | x :: xs, y :: ys => if x < y then true else if y < x then false else keyLe xs ys

/-- Does key `k` fall in the scan window: at or after `start`, and strictly
before `stop` when a stop key is given (the underlying cursor primitive is
exclusive of its upper bound)? -/
def inScanRange (start : HKey) (stop : Option HKey) (k : HKey) : Bool :=
  keyLe start k && (match stop with | none => true | some e => keyLt k e)

/-- Modelled from the spec: the engine's scan
(`handle.scan(table, start, end, limit[, version ceiling]) → cursor`).
It yields, in store order, one row per key in the scan window that has a
version visible in the requested timestamp range, each row carrying the
visible value in the fixed column. -/
def engineScan (st : Store) (start : HKey) (stop : Option HKey)
    (tsRange : Option (Nat × Nat)) : List ResultRow :=
  match st with
  | [] => []
  | (k, vs) :: rest =>
    let tl := engineScan rest start stop tsRange
    if inScanRange start stop k then
      let pick :=
        match tsRange with
        | none => latestAll vs
        | some (lo, hi) => latestBelow vs lo hi
      match pick with
      | none => tl
      | some p => { Row := k, colVal := some p.2 } :: tl
    else tl

/-- A go-themis `ThemisScanner`: the server-side cursor, holding the rows not
yet pulled and a closed flag. -/
structure ThemisScanner where
  rows : List ResultRow
  closed : Bool
  deriving DecidableEq, Repr

/-- `scanner.Next()`: pull the next row, or `nil` at end of data.  Modelled
from the spec: the cursor's advance never reports an error, only absence of
data. -/
def ThemisScanner.next (sc : ThemisScanner) : ThemisScanner × Option ResultRow :=
  match sc.rows with
  | [] => (sc, none)
  | r :: rest => ({ sc with rows := rest }, some r)

/-- `scanner.Close()`. -/
def ThemisScanner.close (sc : ThemisScanner) : ThemisScanner :=
  { sc with closed := true }

/-- The loop body of `RangeGet`: up to `fuel` iterations, pull a row; a
non-nil row with columns is added to the mapping, anything else breaks. -/
def rangeLoop (sc : ThemisScanner) (fuel : Nat) (acc : List (HKey × Bytes)) :
    ThemisScanner × List (HKey × Bytes) :=
  match fuel with
  | 0 => (sc, acc)
  | n + 1 =>
    let (sc2, r) := sc.next
    match r with
    | some row =>
      match row.colVal with
      | some v => rangeLoop sc2 n (acc ++ [(row.Row, v)])
      | none => (sc2, acc)
    | none => (sc2, acc)

/-- `hbaseSnapshot.RangeGet`: open a cursor over `[start, end]` with `limit`,
pull up to `limit` rows stopping at the first empty or columnless row, and
close the cursor on exit (`defer scanner.Close()`).  Returns the mapping
together with the cursor's final state; the Go function's error result is
always `nil` (no path returns an error), so no error component is modelled. -/
def RangeGet (st : Store) (start stop : HKey) (limit : Nat) :
    List (HKey × Bytes) × ThemisScanner :=
  let scanner : ThemisScanner := { rows := engineScan st start (some stop) none, closed := false }
  let (sc2, m) := rangeLoop scanner limit []
  (m, sc2.close)

/-- Modelled from the spec: the engine's multi-row get
(`handle.batchGet(table, multi-row request) → list of row results`): one
row per requested key that exists, carrying its visible value; keys with no
visible version produce no row. -/
def engineBatchGet (st : Store) (ks : List HKey) : List ResultRow :=
  match ks with
  | [] => []
  | k :: rest =>
    match engineGet st k none with
    | none => engineBatchGet st rest
    | some r => r :: engineBatchGet st rest

/-- `hbaseSnapshot.BatchGet`: one multi-row fetch; an engine error is traced
and returned; otherwise each returned row contributes `m[row.Row] = value`. -/
def BatchGet (st : Store) (fault : Option String) (ks : List HKey) :
    Except TracedError (List (HKey × Bytes)) :=
  match fault with
  | some e => .error (trace (traceNew (KvError.engine e)))
  | none =>
    .ok ((engineBatchGet st ks).map (fun r => (r.Row, r.colVal.getD [])))

/-- The client-side iterator `hbaseIter`: the embedded `*themis.ThemisScanner`
pointer (`none` after `Close`) and the current row `rs`. -/
structure HbaseIter where
  scanner : Option ThemisScanner
  rs : Option ResultRow
  deriving DecidableEq, Repr

/-- `hbaseIter.Next`: `it.rs = it.ThemisScanner.Next()`.  Yields `none` when
the scanner pointer is nil (a nil dereference in Go). -/
def HbaseIter.NextOp (it : HbaseIter) : Option HbaseIter :=
  match it.scanner with
  | none => none
  | some sc =>
    let (sc2, r) := sc.next
    some { scanner := some sc2, rs := r }

/-- `hbaseIter.Valid`: false when `rs` is nil or has no columns (checked
first), false when the scanner is closed, true otherwise.  Yields `none`
exactly when the Go code would dereference a nil scanner pointer. -/
def HbaseIter.ValidOp (it : HbaseIter) : Option Bool :=
  match it.rs with
  | none => some false
  | some r =>
    if r.colVal.isSome then
      match it.scanner with
      | none => none
      | some sc => some (! sc.closed)
    else some false

/-- `hbaseIter.Key`: `string(it.rs.Row)`; nil `rs` would be a nil
dereference, hence the `Option`. -/
def HbaseIter.KeyOp (it : HbaseIter) : Option HKey :=
  it.rs.map ResultRow.Row

/-- `hbaseIter.Value`: `it.rs.Columns[hbaseFmlAndQual].Value`. -/
def HbaseIter.ValueOp (it : HbaseIter) : Option Bytes :=
  it.rs.bind ResultRow.colVal

/-- `hbaseIter.Close`: close and clear the scanner pointer, clear `rs`. -/
def HbaseIter.CloseOp (_it : HbaseIter) : HbaseIter :=
  { scanner := none, rs := none }

/-- `newInnerScanner`: wrap the scanner and perform one `Next` before
returning (`it.Next()` on a freshly built iterator; its scanner pointer is
non-nil, so the fallback branch is unreachable). -/
def newInnerScanner (sc : ThemisScanner) : HbaseIter :=
  let it0 : HbaseIter := { scanner := some sc, rs := none }
  match it0.NextOp with
  | some it => it
  | none => it0

/-- The dynamic `interface{}` parameter of `NewIterator`: either the raw
byte-sequence start key the contract expects, or any other value. -/
inductive IterParam where
  | bytes (k : HKey)
  | other (desc : String)
  deriving DecidableEq, Repr

/-- `hbaseSnapshot.NewIterator`: type-check the dynamic parameter; on
mismatch the source logs the error and returns a nil iterator (`none`);
on success open a forward cursor from the start key to open end and
pre-advance once. -/
def NewIterator (st : Store) (param : IterParam) : Option HbaseIter :=
  match param with
  | .other _ => none
  | .bytes k =>
    some (newInnerScanner { rows := engineScan st k none none, closed := false })

/-- `hbaseSnapshot.NewMvccIterator`: a forward cursor from `k` to open end
with `scanner.SetTimeRange(0, ver.Ver+1)` (uint64), pre-advanced once. -/
def NewMvccIterator (st : Store) (k : HKey) (ver : Nat) : HbaseIter :=
  newInnerScanner
    { rows := engineScan st k none (some (0, tsCeil ver)), closed := false }

/-- The snapshot's release-relevant state: the transaction handle reference
(`nil` after release) and a ghost counter of how many times the underlying
`txn.Release()` was actually performed. -/
structure SnapState where
  txn : Option Unit
  releases : Nat
  deriving DecidableEq, Repr

/-- `hbaseSnapshot.Release`: when the handle reference is non-nil, release
the handle and clear the reference; otherwise do nothing. -/
def Release (s : SnapState) : SnapState :=
  match s.txn with
  | some _ => { txn := none, releases := s.releases + 1 }
  | none => s

/-- `hbaseSnapshot.MvccRelease`: delegates to `Release`. -/
def MvccRelease (s : SnapState) : SnapState := Release s

/-- The two-version example store of the spec: key `"a"` (byte 97) written
with value `"1"` (byte 49) at version 1 and `"2"` (byte 50) at version 2. -/
def exampleStore : Store := [([97], [(1, [49]), (2, [50])])]

/-! ## Helper lemmas -/

/-- The requested range `[0, V+1)` of `MvccGet` picks exactly the latest
version with timestamp `≤ V`. -/
theorem latestBelow_eq_latestLe (vs : VersionList) (V : Nat) :
    latestBelow vs 0 (V + 1) = latestLe vs V := by
  induction vs with
  | nil => rfl
  | cons p rest ih =>
    obtain ⟨t, v⟩ := p
    simp only [latestBelow, latestLe, Nat.zero_le, true_and, Nat.lt_succ_iff, ih]

/-- An empty requested timestamp range selects no version. -/
theorem latestBelow_zero_zero (vs : VersionList) : latestBelow vs 0 0 = none := by
  induction vs with
  | nil => rfl
  | cons p rest ih =>
    obtain ⟨t, v⟩ := p
    simp [latestBelow, ih]

/-- An empty requested timestamp range makes a scan yield no rows. -/
theorem engineScan_zero_zero (st : Store) (start : HKey) (stop : Option HKey) :
    engineScan st start stop (some (0, 0)) = [] := by
  induction st with
  | nil => rfl
  | cons p rest ih =>
    obtain ⟨k, vs⟩ := p
    simp only [engineScan, latestBelow_zero_zero, ih]
    split <;> rfl

/-- Strict lexicographic order implies the non-strict one. -/
theorem keyLt_imp_keyLe (a b : HKey) (h : keyLt a b = true) : keyLe a b = true := by
  induction a generalizing b with
  | nil => cases b <;> rfl
  | cons x xs ih =>
    cases b with
    | nil => simp [keyLt] at h
    | cons y ys =>
      by_cases hxy : x < y
      · simp [keyLe, hxy]
      · by_cases hyx : y < x
        · simp [keyLt, hxy, hyx] at h
        · simp only [keyLt, if_neg hxy, if_neg hyx] at h
          simp [keyLe, hxy, hyx, ih _ h]

/-- Every row a scan yields has its key in the scan window and carries a
value in the fixed column. -/
theorem engineScan_mem (st : Store) (start : HKey) (stop : Option HKey)
    (tsRange : Option (Nat × Nat)) (r : ResultRow)
    (h : r ∈ engineScan st start stop tsRange) :
    inScanRange start stop r.Row = true ∧ r.colVal.isSome = true := by
  induction st with
  | nil => simp [engineScan] at h
  | cons p rest ih =>
    obtain ⟨k, vs⟩ := p
    by_cases hk : inScanRange start stop k
    · simp only [engineScan, if_pos hk] at h
      cases hpick : (match tsRange with
          | none => latestAll vs
          | some (lo, hi) => latestBelow vs lo hi) with
      | none => rw [hpick] at h; exact ih h
      | some q =>
        rw [hpick] at h
        rcases List.mem_cons.mp h with h1 | h2
        · subst h1; exact ⟨hk, rfl⟩
        · exact ih h2
    · simp only [engineScan, if_neg hk] at h
      exact ih h

/-! ## Claim theorems -/

/-- C10: after `Close()` has been called, `Valid()` returns `false` without
panicking: `Close` clears both the scanner reference and the current row, and
`Valid` checks the cleared current row first, so it never dereferences the
cleared scanner reference (a panic would surface as `none` here). -/
theorem closed_iter_valid_false (it : HbaseIter) :
    (it.CloseOp).ValidOp = some false := rfl

/-- C7: on every execution path of `RangeGet` (normal completion and early
break; the underlying cursor's advance has no error path), the cursor it
opened is closed by the time it returns. -/
theorem rangeGet_closes_cursor (st : Store) (start stop : HKey) (limit : Nat) :
    (RangeGet st start stop limit).2.closed = true := by
  simp [RangeGet, ThemisScanner.close]

/-- C8: `Release` releases the held transaction handle exactly once and is
idempotent: a second or any later call, or a call on an already-released
snapshot, is a no-op that performs no further release, because the handle
reference is cleared after the first release; `MvccRelease` delegates to
`Release`. -/
theorem release_idempotent (s : SnapState) :
    Release (Release s) = Release s ∧
    (∀ n : Nat, Release^[n + 1] s = Release s) ∧
    (∀ h0 : Unit, s.txn = some h0 →
      (Release s).releases = s.releases + 1 ∧ (Release s).txn = none) ∧
    (s.txn = none → Release s = s) ∧
    MvccRelease s = Release s := by
  have hid : Release (Release s) = Release s := by
    cases hs : s.txn with
    | none => simp [Release, hs]
    | some u => simp [Release, hs]
  refine ⟨hid, ?_, ?_, ?_, rfl⟩
  · intro n
    induction n with
    | zero => simp [Function.iterate_one]
    | succ m ihm => rw [Function.iterate_succ_apply', ihm, hid]
  · intro h0 hs
    simp [Release, hs]
  · intro hs
    simp [Release, hs]

/-- Witness for C8 at the fresh snapshot state. -/
theorem release_idempotent_witness :
    Release (Release { txn := some (), releases := 0 }) =
      Release { txn := some (), releases := 0 } ∧
    (Release { txn := some (), releases := 0 }).releases = 1 :=
  ⟨(release_idempotent { txn := some (), releases := 0 }).1,
   ((release_idempotent { txn := some (), releases := 0 }).2.2.1 () rfl).1⟩

/-- C5: the source does not fail fast on a malformed iterator parameter: a
parameter that is not a raw byte-sequence start key makes `NewIterator` log
and return a nil iterator (`none`), contradicting the claimed error or
panic-equivalent. -/
theorem newIterator_bad_param_nil :
    NewIterator exampleStore (IterParam.other "int 42") = none := rfl

/-- C2: `Get` fails with the NotFound error iff the fetched row is absent or
carries no value in the fixed column; otherwise it returns the raw bytes in
that column; a lower-layer error is passed through wrapped with context
(traced once in `internalGet` and once more in `Get`); and `Get` is exactly
this translation applied to the engine's response. -/
theorem get_notFound_iff (r : Option ResultRow) (err : Option String) :
    (isNotFoundRes (getFromResp (r, err)) = true ↔
      err = none ∧ (r = none ∨ ∃ row, r = some row ∧ row.colVal = none)) ∧
    (∀ v, getFromResp (r, err) = Except.ok v ↔
      err = none ∧ ∃ row, r = some row ∧ row.colVal = some v) ∧
    (∀ e, err = some e →
      getFromResp (r, err) =
        Except.error { cause := KvError.engine e, depth := 2 }) ∧
    (∀ (st : Store) (fault : Option String) (k : HKey),
      Get st fault k = getFromResp (txnGet st fault k none)) := by
  refine ⟨?_, ?_, ?_, fun st fault k => rfl⟩ <;>
    cases err with
    | some e => simp [getFromResp, internalGet, isNotFoundRes, trace, traceNew]
    | none =>
      cases r with
      | none => simp [getFromResp, internalGet, isNotFoundRes, trace, traceNew]
      | some row =>
        cases hc : row.colVal with
        | none =>
          simp [getFromResp, internalGet, isNotFoundRes, trace, traceNew, hc]
        | some v0 =>
          simp only [getFromResp, internalGet, hc, isNotFoundRes]
          simp [hc, eq_comm]

/-- Witness for C2: a lower-layer fault is passed through wrapped twice, and
a present row yields its bytes. -/
theorem get_notFound_iff_witness :
    getFromResp (none, some "io fault") =
      Except.error { cause := KvError.engine "io fault", depth := 2 } ∧
    getFromResp (some { Row := [97], colVal := some [49] }, none) =
      Except.ok [49] :=
  ⟨(get_notFound_iff none (some "io fault")).2.2.1 "io fault" rfl,
   ((get_notFound_iff (some { Row := [97], colVal := some [49] }) none).2.1
      [49]).mpr ⟨rfl, _, rfl, rfl⟩⟩

/-- C9: the version ceiling is computed as `Ver + 1` in unsigned 64-bit
arithmetic: below the maximum the requested range `[0, tsCeil ver)` is
exactly the versions `≤ ver`, while at `Ver = 2^64 - 1` the ceiling wraps to
`0`, `MvccGet` finds no version at all, and the scanner of `NewMvccIterator`
yields no rows for any store. -/
theorem tsCeil_wraparound (ver : Nat) :
    (ver < u64Mod - 1 →
      tsCeil ver = ver + 1 ∧ ∀ t : Nat, (0 ≤ t ∧ t < tsCeil ver) ↔ t ≤ ver) ∧
    (ver = u64Mod - 1 →
      tsCeil ver = 0 ∧
      ∀ (st : Store) (k : HKey),
        MvccGet st none k ver = Except.error (trace (traceNew KvError.errNotExist)) ∧
        engineScan st k none (some (0, tsCeil ver)) = []) := by
  have hm : u64Mod = 18446744073709551616 := by norm_num [u64Mod]
  constructor
  · intro h
    rw [hm] at h
    have hts : tsCeil ver = ver + 1 := by
      unfold tsCeil
      exact Nat.mod_eq_of_lt (by rw [hm]; omega)
    exact ⟨hts, fun t => by rw [hts]; omega⟩
  · intro h
    have hts : tsCeil ver = 0 := by
      unfold tsCeil
      rw [h, Nat.sub_add_cancel (by rw [hm]; omega), Nat.mod_self]
    refine ⟨hts, fun st k => ⟨?_, ?_⟩⟩
    · simp [MvccGet, txnGet, engineGet, hts, latestBelow_zero_zero,
        getFromResp, internalGet]
    · rw [hts]; exact engineScan_zero_zero st k none

/-- Witness for C9: the no-wrap case at `ver = 5` and the wrap case at the
maximum `uint64` version on the example store. -/
theorem tsCeil_wraparound_witness :
    tsCeil 5 = 6 ∧
    MvccGet exampleStore none [97] (u64Mod - 1) =
      Except.error (trace (traceNew KvError.errNotExist)) :=
  ⟨((tsCeil_wraparound 5).1 (by norm_num [u64Mod])).1,
   (((tsCeil_wraparound (u64Mod - 1)).2 rfl).2 exampleStore [97]).1⟩

/-- C1 (amended): for every version with `Ver < 2^64 - 1`, `MvccGet` returns
the value visible at the latest committed version `≤ Ver` and reports
not-found when no such version exists; in particular, on the example store
(`"a"` written `"1"` at version 1 and `"2"` at version 2) it returns `"1"`
at version 1, `"2"` at version 2, and NotFound at version 0. -/
theorem mvccGet_visibleAt :
    (∀ (st : Store) (k : HKey) (ver : Nat), ver < u64Mod - 1 →
      (∀ v, MvccGet st none k ver = Except.ok v ↔
        visibleAt (st.versions k) ver = some v) ∧
      (isNotFoundRes (MvccGet st none k ver) = true ↔
        visibleAt (st.versions k) ver = none)) ∧
    MvccGet exampleStore none [97] 1 = Except.ok [49] ∧
    MvccGet exampleStore none [97] 2 = Except.ok [50] ∧
    isNotFoundRes (MvccGet exampleStore none [97] 0) = true := by
  constructor
  · intro st k ver h
    have hm : u64Mod = 18446744073709551616 := by norm_num [u64Mod]
    rw [hm] at h
    have hts : tsCeil ver = ver + 1 := by
      unfold tsCeil
      exact Nat.mod_eq_of_lt (by rw [hm]; omega)
    simp only [MvccGet, txnGet, engineGet, hts, latestBelow_eq_latestLe,
      visibleAt]
    cases hl : latestLe (st.versions k) ver with
    | none => simp [getFromResp, internalGet, isNotFoundRes, trace, traceNew]
    | some q =>
      simp [getFromResp, internalGet, isNotFoundRes, trace, traceNew, eq_comm]
  · exact ⟨rfl, rfl, rfl⟩

/-- Witness for C1 at version 1 on the example store. -/
theorem mvccGet_visibleAt_witness :
    isNotFoundRes (MvccGet exampleStore none [98] 1) = true :=
  ((mvccGet_visibleAt.1 exampleStore [98] 1 (by norm_num [u64Mod])).2).mpr rfl

/-- C1 counterexample: at `Ver = 2^64 - 1` the ceiling wraps, so on the
example store `MvccGet` reports not-found even though a committed version
`≤ Ver` exists (the value `"2"` at version 2 is visible). -/
theorem mvccGet_maxver_refuted :
    isNotFoundRes (MvccGet exampleStore none [97] (u64Mod - 1)) = true ∧
    visibleAt (Store.versions exampleStore [97]) (u64Mod - 1) = some [50] := by
  constructor
  · rfl
  · rfl

/-- The per-row translation both `BatchGet` and `RangeGet` apply:
`m[string(r.Row)] = r.Columns[hbaseFmlAndQual].Value`. -/
theorem engineBatchGet_mem (st : Store) (ks : List HKey) (k : HKey) (v : Bytes) :
    (k, v) ∈ (engineBatchGet st ks).map (fun r => (r.Row, r.colVal.getD [])) ↔
      k ∈ ks ∧ (latestAll (st.versions k)).map Prod.snd = some v := by
  induction ks with
  | nil => simp [engineBatchGet]
  | cons k2 rest ih =>
    simp only [engineBatchGet]
    cases hg : engineGet st k2 none with
    | none =>
      have hla : latestAll (st.versions k2) = none := by
        simpa [engineGet, Option.map_eq_none'] using hg
      rw [List.mem_cons]
      constructor
      · intro h3
        obtain ⟨hr, hp⟩ := ih.mp h3
        exact ⟨Or.inr hr, hp⟩
      · rintro ⟨hk2 | hin, hp⟩
        · subst hk2
          rw [hla] at hp
          simp at hp
        · exact ih.mpr ⟨hin, hp⟩
    | some row =>
      obtain ⟨p, hla, hrow⟩ : ∃ p, latestAll (st.versions k2) = some p ∧
          row = { Row := k2, colVal := some p.2 } := by
        cases hla2 : latestAll (st.versions k2) with
        | none => simp [engineGet, hla2] at hg
        | some p =>
          refine ⟨p, rfl, ?_⟩
          have h2 := hg
          simp only [engineGet, hla2, Option.map_some', Option.some.injEq] at h2
          exact h2.symm
      subst hrow
      simp only [List.map_cons, List.mem_cons, Option.getD_some]
      constructor
      · rintro (hpair | h3)
        · rw [Prod.mk.injEq] at hpair
          obtain ⟨hk2, hv⟩ := hpair
          subst hk2
          exact ⟨Or.inl rfl, by rw [hla, hv]; rfl⟩
        · obtain ⟨hr, hp⟩ := ih.mp h3
          exact ⟨Or.inr hr, hp⟩
      · rintro ⟨hk2 | hin, hp⟩
        · subst hk2
          rw [hla] at hp
          simp only [Option.map_some', Option.some.injEq] at hp
          exact Or.inl (by rw [hp])
        · exact Or.inr (ih.mpr ⟨hin, hp⟩)

/-- C3: `BatchGet` over any mix of existing and non-existing keys never
errors; its mapping holds exactly the queried keys that exist, each with its
(latest) value, and keys with no result row are simply absent — unlike
`Get`, which treats absence as an error. -/
theorem batchGet_exact (st : Store) (ks : List HKey) :
    ∃ m, BatchGet st none ks = Except.ok m ∧
      ∀ (k : HKey) (v : Bytes),
        (k, v) ∈ m ↔ k ∈ ks ∧ (latestAll (st.versions k)).map Prod.snd = some v :=
  ⟨_, rfl, fun k v => engineBatchGet_mem st ks k v⟩

/-- Unrolling the `RangeGet` loop over a scanner whose pending rows all
carry a value in the fixed column: it takes up to `fuel` rows in order. -/
theorem rangeLoop_wf (fuel : Nat) (rows : List ResultRow) (cl : Bool)
    (acc : List (HKey × Bytes))
    (hwf : ∀ r ∈ rows, r.colVal.isSome = true) :
    rangeLoop { rows := rows, closed := cl } fuel acc =
      ({ rows := rows.drop fuel, closed := cl },
        acc ++ (rows.take fuel).map (fun r => (r.Row, r.colVal.getD []))) := by
  induction fuel generalizing rows acc with
  | zero => simp [rangeLoop]
  | succ n ihn =>
    cases rows with
    | nil => simp [rangeLoop, ThemisScanner.next]
    | cons r rest =>
      have hr : r.colVal.isSome = true := hwf r (by simp)
      obtain ⟨v, hv⟩ := Option.isSome_iff_exists.mp hr
      simp only [rangeLoop, ThemisScanner.next, hv]
      rw [ihn rest _ (fun r2 h2 => hwf r2 (by simp [h2]))]
      simp [hv]

/-- C4: `RangeGet(start, end, limit)` returns at most `limit` entries, all
with keys in `[start, end]`; it returns fewer than `limit` entries only when
the range is exhausted (the whole qualifying scan was consumed), and it
returns an empty mapping — its Go error result is always nil — when no rows
qualify. -/
theorem rangeGet_bounds (st : Store) (start stop : HKey) (limit : Nat) :
    ((RangeGet st start stop limit).1.length ≤ limit) ∧
    (∀ p ∈ (RangeGet st start stop limit).1,
      keyLe start p.1 = true ∧ keyLe p.1 stop = true) ∧
    ((RangeGet st start stop limit).1.length < limit →
      (RangeGet st start stop limit).1 =
        (engineScan st start (some stop) none).map
          (fun r => (r.Row, r.colVal.getD []))) ∧
    (engineScan st start (some stop) none = [] →
      (RangeGet st start stop limit).1 = []) := by
  have hwf : ∀ r ∈ engineScan st start (some stop) none, r.colVal.isSome = true :=
    fun r h => (engineScan_mem st start (some stop) none r h).2
  have key : (RangeGet st start stop limit).1 =
      ((engineScan st start (some stop) none).take limit).map
        (fun r => (r.Row, r.colVal.getD [])) := by
    simp only [RangeGet]
    rw [rangeLoop_wf limit _ false [] hwf]
    simp
  refine ⟨?_, ?_, ?_, ?_⟩
  · rw [key]
    simp only [List.length_map, List.length_take]
    omega
  · intro p hp
    rw [key] at hp
    obtain ⟨r, hr, hpr⟩ := List.mem_map.mp hp
    have hr2 : r ∈ engineScan st start (some stop) none :=
      List.take_subset _ _ hr
    have hin := (engineScan_mem st start (some stop) none r hr2).1
    simp only [inScanRange, Bool.and_eq_true] at hin
    obtain ⟨hle, hlt⟩ := hin
    have hp1 : p.1 = r.Row := by rw [← hpr]
    rw [hp1]
    exact ⟨hle, keyLt_imp_keyLe _ _ hlt⟩
  · intro hlen
    rw [key] at hlen ⊢
    simp only [List.length_map, List.length_take] at hlen
    have hle : (engineScan st start (some stop) none).length ≤ limit := by omega
    rw [List.take_of_length_le hle]
  · intro hempty
    rw [key, hempty]
    simp

/-- Witness for C4 on the example store: the single qualifying row is
returned and, with the limit not reached, the range was exhausted. -/
theorem rangeGet_bounds_witness :
    (RangeGet exampleStore [97] [99] 5).1 =
      (engineScan exampleStore [97] (some [99]) none).map
        (fun r => (r.Row, r.colVal.getD [])) :=
  (rangeGet_bounds exampleStore [97] [99] 5).2.2.1 (by decide)

/-- A freshly wrapped scanner has been advanced once: its state immediately
reflects the first pending row. -/
theorem newInnerScanner_spec (rows : List ResultRow)
    (hwf : ∀ r ∈ rows, r.colVal.isSome = true) :
    (rows = [] → (newInnerScanner { rows := rows, closed := false }).ValidOp = some false) ∧
    (∀ r rest, rows = r :: rest →
      (newInnerScanner { rows := rows, closed := false }).ValidOp = some true ∧
      (newInnerScanner { rows := rows, closed := false }).KeyOp = some r.Row ∧
      (newInnerScanner { rows := rows, closed := false }).ValueOp = r.colVal) := by
  cases rows with
  | nil => exact ⟨fun _ => rfl, fun r rest h => List.noConfusion h⟩
  | cons r0 rest0 =>
    refine ⟨fun h => List.noConfusion h, ?_⟩
    intro r rest h
    obtain ⟨h1, h2⟩ := List.cons.injEq r0 rest0 r rest ▸ h
    subst h1
    have hr : r0.colVal.isSome = true := hwf r0 (by simp)
    refine ⟨?_, rfl, rfl⟩
    simp [newInnerScanner, HbaseIter.NextOp, ThemisScanner.next,
      HbaseIter.ValidOp, hr]

/-- C6: every iterator from `NewIterator` or `NewMvccIterator` has performed
one advance before being returned: immediately after construction `Valid()`
is true with `Key()`/`Value()` reflecting the first row when the scanned
range is non-empty, and `Valid()` is false when it is empty. -/
theorem iterators_preadvanced (st : Store) (k : HKey) (ver : Nat) :
    (∀ it, NewIterator st (IterParam.bytes k) = some it →
      (engineScan st k none none = [] → it.ValidOp = some false) ∧
      (∀ r rest, engineScan st k none none = r :: rest →
        it.ValidOp = some true ∧ it.KeyOp = some r.Row ∧ it.ValueOp = r.colVal)) ∧
    ((engineScan st k none (some (0, tsCeil ver)) = [] →
      (NewMvccIterator st k ver).ValidOp = some false) ∧
     (∀ r rest, engineScan st k none (some (0, tsCeil ver)) = r :: rest →
      (NewMvccIterator st k ver).ValidOp = some true ∧
      (NewMvccIterator st k ver).KeyOp = some r.Row ∧
      (NewMvccIterator st k ver).ValueOp = r.colVal)) := by
  constructor
  · intro it hit
    have hit2 : it = newInnerScanner
        { rows := engineScan st k none none, closed := false } := by
      simpa [NewIterator] using hit.symm
    subst hit2
    exact newInnerScanner_spec _
      (fun r h => (engineScan_mem st k none none r h).2)
  · exact newInnerScanner_spec _
      (fun r h => (engineScan_mem st k none (some (0, tsCeil ver)) r h).2)

/-- Witness for C6 on the example store: both constructors yield an
immediately valid iterator positioned on the first row. -/
theorem iterators_preadvanced_witness :
    (NewMvccIterator exampleStore [97] 2).ValidOp = some true ∧
    ∃ it, NewIterator exampleStore (IterParam.bytes [97]) = some it ∧
      it.ValidOp = some true :=
  ⟨((iterators_preadvanced exampleStore [97] 2).2.2
      { Row := [97], colVal := some [50] } [] rfl).1,
   ⟨newInnerScanner
      { rows := engineScan exampleStore [97] none none, closed := false },
    rfl,
    (((iterators_preadvanced exampleStore [97] 2).1 _ rfl).2
      { Row := [97], colVal := some [50] } [] rfl).1⟩⟩

end HbaseKV
